import Mathlib

/-!
Shallow embedding of the frame-extraction core of `video_frame_extractor.py`.

Python floats are modelled as exact rationals (`ℚ`), Python ints as `ℤ`/`ℕ`.
`FrameExtractorThread.run` is modelled as a pure function over oracles for the
decoder (`cv2.VideoCapture`: open result, metadata, per-index reads) and the
image writer (`cv2.imwrite`); a read that returns `ret = False` is `ReadRes.bad`,
and exceptions raised by the decoder or writer are `ReadRes.exn` / `WriteRes.exn`
and propagate to the `except` handler exactly as in the source.
-/

/-- Python `int(...)` applied to a numeric value: truncation toward zero. -/
def pyint (q : ℚ) : ℤ := if 0 ≤ q then ⌊q⌋ else ⌈q⌉

/-- A rectangle `(x, y, width, height)`, as the 4-tuples used in the source. -/
structure Rect where
  x : ℤ
  y : ℤ
  w : ℤ
  h : ℤ
deriving DecidableEq, Repr

/-- A decoded pixel buffer, tracked by its numpy shape `(h, w)`; the pixel
data itself is irrelevant to every claim. `frame.size > 0` in the source is
`0 < h * w` here (the channel dimension is the constant 3). -/
structure Frame where
  h : ℕ
  w : ℕ
deriving DecidableEq, Repr

/-- The ROI clamping block of the source (lines 121-124, identical at
404-407): clamp `(x, y)` into `[0, v-1]` and shrink `(w, h)` to fit. -/
def clampRoi (r : Rect) (vw vh : ℤ) : Rect :=
  let x := max 0 (min r.x (vw - 1))
  let y := max 0 (min r.y (vh - 1))
  ⟨x, y, min r.w (vw - x), min r.h (vh - y)⟩

/-- Length of the numpy basic slice `a[i:j]` along an axis of length `len`:
negative bounds wrap by `len`, then both bounds are clamped to `[0, len]`. -/
def npSliceLen (len : ℕ) (i j : ℤ) : ℕ :=
  let ni : ℤ := if i < 0 then max 0 ((len : ℤ) + i) else min i (len : ℤ)
  let nj : ℤ := if j < 0 then max 0 ((len : ℤ) + j) else min j (len : ℤ)
  (nj - ni).toNat

/-- Lines 153-154 of the source: `frame[roi_y:roi_y+roi_h, roi_x:roi_x+roi_w]`,
guarded by `self.roi and roi_w > 0 and roi_h > 0`, where the rectangle has
already been clamped against the video dimensions before the loop. -/
def applyClampedRoi : Option Rect → Frame → Frame
  | none, f => f
  | some c, f =>
    if 0 < c.w ∧ 0 < c.h then
      { h := npSliceLen f.h c.y (c.y + c.h), w := npSliceLen f.w c.x (c.x + c.w) }
    else f

/-- The cropper applied to a raw ROI: clamp against the frame dimensions,
then slice (the composition the worker performs for a present ROI). -/
def cropFrame (r : Rect) (vw vh : ℤ) (f : Frame) : Frame :=
  applyClampedRoi (some (clampRoi r vw vh)) f

/-- `VideoFrameExtractor.on_roi_selected` (lines 373-410): map a display-space
rectangle to video pixel space. Arguments: the selected rectangle
`(x, y, width, height)`, the label (container) size `(lw, lh)`, the displayed
pixmap (content) size `(pw, ph)`, and the video dimensions `(vw, vh)`.
Returns `none` when the handler returns without storing an ROI. -/
def on_roi_selected (x y width height lw lh pw ph vw vh : ℤ) : Option Rect :=
  let xOff := Int.fdiv (lw - pw) 2
  let yOff := Int.fdiv (lh - ph) 2
  let xAdj := x - xOff
  let yAdj := y - yOff
  if xAdj < 0 ∨ yAdj < 0 ∨ pw ≤ xAdj ∨ ph ≤ yAdj then none
  else
    let scaleX : ℚ := if 0 < pw then (vw : ℚ) / (pw : ℚ) else 1
    let scaleY : ℚ := if 0 < ph then (vh : ℚ) / (ph : ℚ) else 1
    some (clampRoi ⟨pyint ((xAdj : ℚ) * scaleX), pyint ((yAdj : ℚ) * scaleY),
                    pyint ((width : ℚ) * scaleX), pyint ((height : ℚ) * scaleY)⟩ vw vh)

/-- Zero-pad a natural number to (at least) 6 digits, as Python `f"{n:06d}"`. -/
def pad6 (n : ℕ) : String :=
  let s := toString n
  String.mk (List.replicate (6 - s.length) '0') ++ s

/-- Round to the nearest integer, ties to even, as Python number formatting. -/
def roundHalfEven (q : ℚ) : ℤ :=
  let f := ⌊q⌋
  if q - (f : ℚ) < 1/2 then f
  else if (1/2 : ℚ) < q - (f : ℚ) then f + 1
  else if f % 2 = 0 then f else f + 1

/-- Python `f"{q:.2f}"` for a nonnegative value: two fixed decimals. -/
def fmt2 (q : ℚ) : String :=
  let n := roundHalfEven (q * 100)
  let ip := Int.fdiv n 100
  let fp := (n - 100 * ip).toNat
  toString ip ++ "." ++ (if fp < 10 then "0" ++ toString fp else toString fp)

/-- Line 159 of the source: `f"frame_{frame_count:06d}_t{timestamp:.2f}s.jpg"`. -/
def frameFilename (counter : ℕ) (t : ℚ) : String :=
  "frame_" ++ pad6 counter ++ "_t" ++ fmt2 t ++ "s.jpg"

/-- `np.linspace(a, b, num, dtype=int)`: `num` evenly spaced samples from `a`
to `b` inclusive, truncated to integers. `num = 0` yields the empty array and
`num = 1` yields just `a`, as in numpy. -/
def linspaceInt (a b : ℤ) (num : ℕ) : List ℤ :=
  if num = 0 then []
  else if num = 1 then [a]
  else (List.range num).map
    (fun i : ℕ => pyint ((a : ℚ) + (i : ℚ) * ((b : ℚ) - (a : ℚ)) / ((num : ℚ) - 1)))

/-- Line 136: `start_frame = int(current_time * fps)`. -/
def startFrame (fps t : ℚ) : ℤ := pyint (t * fps)

/-- Line 137: `end_frame = int(min((current_time + frame_interval) * fps, total_frames))`. -/
def endFrame (fps : ℚ) (total : ℤ) (fi t : ℚ) : ℤ :=
  pyint (min ((t + fi) * fps) (total : ℚ))

/-- Lines 136-144: the frame indices planned for the window starting at `t`. -/
def windowIndices (fps : ℚ) (total density : ℤ) (fi t : ℚ) : List ℤ :=
  let s := startFrame fps t
  let e := endFrame fps total fi t
  let m : ℚ := min ((density : ℚ) * fi) ((e : ℚ) - (s : ℚ))
  if 0 < m then linspaceInt s (e - 1) (pyint m).toNat
  else if s < total then [s] else []

/-- The `while current_time < video_duration` loop's sequence of visited
window-start times, run with explicit fuel: the body executes at `t`, then
`current_time += frame_interval`, then `if frame_interval <= 0: break`
(lines 134, 168-170). -/
def whileTimes (dur fi : ℚ) : ℕ → ℚ → List ℚ
  | 0, _ => []
  | fuel + 1, t =>
    if t < dur then
      (if 0 < fi then t :: whileTimes dur fi fuel (t + fi) else [t])
    else []

/-- Fuel sufficient for `whileTimes` to run to its exit condition. -/
def numIters (dur fi t : ℚ) : ℕ :=
  if 0 < fi then (⌈(dur - t) / fi⌉).toNat else 1

/-- The full sequence of window-start times visited by the while loop. -/
def loopTimes (dur fi t : ℚ) : List ℚ := whileTimes dur fi (numIters dur fi t) t

/-- The sampling plan: ordered `(window start time, frame index)` pairs, with
`duration` and the effective interval derived exactly as in lines 113 and 128. -/
def samplingPlan (fps : ℚ) (total : ℤ) (interval : ℚ) (density : ℤ) : List (ℚ × ℤ) :=
  let dur : ℚ := if 0 < fps then (total : ℚ) / fps else 0
  let fi : ℚ := if 0 < interval then interval else dur
  ((loopTimes dur fi 0).map
    (fun t => (windowIndices fps total density fi t).map (fun i => (t, i)))).flatten

/-- Signals emitted by `FrameExtractorThread`. -/
inductive Event where
  | progress (p : ℤ)
  | finished (n : ℕ)
  | error (msg : String)
deriving DecidableEq, Repr

/-- Whether an event is terminal (completed or error), rather than progress. -/
def Event.isTerminal : Event → Bool
  | .progress _ => false
  | .finished _ => true
  | .error _ => true

/-- Result of `cap.read()` after seeking: a frame, `ret = False`, or a raised
decoder exception. -/
inductive ReadRes where
  | ok (f : Frame)
  | bad
  | exn (msg : String)

/-- Result of `cv2.imwrite`: success, or a raised exception. -/
inductive WriteRes where
  | ok
  | exn (msg : String)

/-- Terminal job status (the spec's state machine, §4.6). -/
inductive JobStatus where
  | Completed
  | Failed
deriving DecidableEq, Repr

/-- The decoder/writer environment of one job: `cap.isOpened()`, the metadata
reads of lines 111-115, the per-index frame reads, and the writer keyed by the
value of `frame_count` at the call. -/
structure Oracles where
  openOk : Bool
  fps : ℚ
  totalFrames : ℤ
  width : ℤ
  height : ℤ
  read : ℤ → ReadRes
  write : ℕ → WriteRes

/-- The constructor arguments of `FrameExtractorThread`. -/
structure Config where
  videoPath : String
  outputDir : String
  intervalSeconds : ℚ
  framesPerSecond : ℤ
  roi : Option Rect

/-- Mutable state of the extraction loop: `frame_count`, the emitted events,
the written file names, and the trace of indices at which a read was issued. -/
structure St where
  count : ℕ
  events : List Event
  files : List String
  attempted : List ℤ
deriving DecidableEq, Repr

/-- Line 113: `video_duration = total_frames / fps if fps > 0 else 0`. -/
def videoDuration (o : Oracles) : ℚ :=
  if 0 < o.fps then (o.totalFrames : ℚ) / o.fps else 0

/-- Line 128: `frame_interval = interval_seconds if interval_seconds > 0 else video_duration`. -/
def effectiveInterval (o : Oracles) (cfg : Config) : ℚ :=
  if 0 < cfg.intervalSeconds then cfg.intervalSeconds else videoDuration o

/-- The window-start times one job's loop visits. -/
def planTimes (o : Oracles) (cfg : Config) : List ℚ :=
  loopTimes (videoDuration o) (effectiveInterval o cfg) 0

/-- Lines 165-166: the progress percentage emitted for a window starting
at `t`. -/
def pctOf (t dur : ℚ) : ℤ :=
  min (if 0 < dur then pyint (t / dur * 100) else 0) 100

/-- The inner `for idx in frame_indices` loop (lines 146-166). `Except.error`
models an exception escaping to the handler; `.bad` reads `break` out of the
remaining indices of the window. -/
def processIndices (read : ℤ → ReadRes) (write : ℕ → WriteRes) (roiC : Option Rect)
    (t dur : ℚ) : List ℤ → St → Except (String × St) St
  | [], st => .ok st
  | idx :: rest, st =>
    let st1 : St := { st with attempted := st.attempted ++ [idx] }
    match read idx with
    | .exn m => .error (m, st1)
    | .bad => .ok st1
    | .ok f =>
      let f2 := applyClampedRoi roiC f
      if 0 < f2.h * f2.w then
        match write st1.count with
        | .exn m => .error (m, st1)
        | .ok =>
          processIndices read write roiC t dur rest
            { st1 with
              count := st1.count + 1
              files := st1.files ++ [frameFilename st1.count t]
              events := st1.events ++ [.progress (pctOf t dur)] }
      else processIndices read write roiC t dur rest st1

/-- The outer while loop's body applied to each visited window-start time. -/
def runLoop (read : ℤ → ReadRes) (write : ℕ → WriteRes) (roiC : Option Rect)
    (fps : ℚ) (total density : ℤ) (dur fi : ℚ) : List ℚ → St → Except (String × St) St
  | [], st => .ok st
  | t :: ts, st =>
    match processIndices read write roiC t dur (windowIndices fps total density fi t) st with
    | .error e => .error e
    | .ok st2 => runLoop read write roiC fps total density dur fi ts st2

/-- Observable outcome of one `FrameExtractorThread.run` invocation. -/
structure RunResult where
  events : List Event
  status : JobStatus
  released : Bool
  dirCreated : Bool
  files : List String
  attempted : List ℤ
deriving Repr

/-- `FrameExtractorThread.run` (lines 104-176): open check, metadata, ROI
pre-clamping, directory creation, the sampling/extraction loop, release and
the terminal emit, all inside `try`; the `except` arm emits the error event
(and, as in the source, does not release the capture). -/
def run (o : Oracles) (cfg : Config) : RunResult :=
  if o.openOk then
    let dur := videoDuration o
    let roiC := cfg.roi.map (fun r => clampRoi r o.width o.height)
    let fi := effectiveInterval o cfg
    match runLoop o.read o.write roiC o.fps o.totalFrames cfg.framesPerSecond dur fi
        (loopTimes dur fi 0) ⟨0, [], [], []⟩ with
    | .ok st =>
        ⟨st.events ++ [.finished st.count], .Completed, true, true, st.files, st.attempted⟩
    | .error (m, st) =>
        ⟨st.events ++ [.error ("Error extracting frames: " ++ m)], .Failed, false, true,
          st.files, st.attempted⟩
  else
    ⟨[.error ("Failed to open video: " ++ cfg.videoPath)], .Failed, false, false, [], []⟩

/-- Modelled from the spec (§4.6): the per-interval read policy — on a failed
read, the remainder of the current interval's planned indices is skipped. For
one interval's planned list, the indices actually attempted are the successful
prefix plus the first failing index, if any. -/
def intervalAttempt (read : ℤ → ReadRes) : List ℤ → List ℤ
  | [] => []
  | i :: rest =>
    match read i with
    | .ok _ => i :: intervalAttempt read rest
    | _ => [i]

/-- The values carried by the progress events of an event list, in order. -/
def progressVals (es : List Event) : List ℤ :=
  es.filterMap (fun e => match e with | .progress p => some p | _ => none)

/-- File names produced for consecutive write counters starting at `c0`, one
per entry of the list of per-write window timestamps. -/
def fnames (c0 : ℕ) : List ℚ → List String
  | [] => []
  | t :: rest => frameFilename c0 t :: fnames (c0 + 1) rest

/-- The loop state reached by a step of the worker, whether it returned
normally or through the exception handler. -/
def outSt : Except (String × St) St → St
  | .ok st => st
  | .error (_, st) => st

/-! ### Basic facts about `pyint` (Python `int()` truncation) -/

theorem pyint_of_nonneg {q : ℚ} (h : 0 ≤ q) : pyint q = ⌊q⌋ := if_pos h

theorem pyint_intCast (n : ℤ) : pyint (n : ℚ) = n := by
  unfold pyint
  split
  · exact Int.floor_intCast n
  · exact Int.ceil_intCast n

theorem pyint_mono {p q : ℚ} (h : p ≤ q) : pyint p ≤ pyint q := by
  unfold pyint
  split <;> split
  all_goals rename_i hp hq
  · exact Int.floor_mono h
  · exact absurd (le_trans hp h) hq
  · refine le_trans (Int.ceil_le.mpr ?_) (Int.floor_nonneg.mpr hq)
    exact_mod_cast le_of_not_le hp
  · exact Int.ceil_mono h

theorem le_pyint {n : ℤ} {q : ℚ} (h : (n : ℚ) ≤ q) : n ≤ pyint q := by
  unfold pyint
  split
  · exact Int.le_floor.mpr h
  · exact_mod_cast le_trans h (Int.le_ceil q)

theorem pyint_le {n : ℤ} {q : ℚ} (h : q ≤ (n : ℚ)) : pyint q ≤ n := by
  unfold pyint
  split
  · exact_mod_cast le_trans (Int.floor_le q) h
  · exact Int.ceil_le.mpr h

theorem pyint_nonneg {q : ℚ} (h : 0 ≤ q) : 0 ≤ pyint q :=
  le_pyint (by exact_mod_cast h)

/-! ### The while loop's visited window-start times -/

theorem whileTimes_eq_map (dur fi : ℚ) (hfi : 0 < fi) :
    ∀ (fuel : ℕ) (t : ℚ), (⌈(dur - t) / fi⌉).toNat ≤ fuel →
      whileTimes dur fi fuel t =
        (List.range (⌈(dur - t) / fi⌉).toNat).map (fun k : ℕ => t + (k : ℚ) * fi) := by
  intro fuel
  induction fuel with
  | zero =>
    intro t h
    rw [Nat.le_zero.mp h]
    rfl
  | succ n ih =>
    intro t h
    by_cases ht : t < dur
    · have hpos : 0 < ⌈(dur - t) / fi⌉ :=
        Int.ceil_pos.mpr (div_pos (by linarith) hfi)
      have hstep : (dur - (t + fi)) / fi = (dur - t) / fi - 1 := by
        field_simp
        ring
      have hceil : ⌈(dur - (t + fi)) / fi⌉ = ⌈(dur - t) / fi⌉ - 1 := by
        rw [hstep, Int.ceil_sub_one]
      have hN : (⌈(dur - t) / fi⌉).toNat = (⌈(dur - (t + fi)) / fi⌉).toNat + 1 := by
        omega
      have hrec : whileTimes dur fi (n + 1) t = t :: whileTimes dur fi n (t + fi) := by
        simp [whileTimes, ht, hfi]
      rw [hrec, ih (t + fi) (by omega), hN, List.range_succ_eq_map]
      simp only [List.map_cons, List.map_map]
      congr 1
      · push_cast
        ring
      · apply List.map_congr_left
        intro k _
        simp only [Function.comp_apply]
        push_cast
        ring
    · have hle : ⌈(dur - t) / fi⌉ ≤ 0 := by
        rw [Int.ceil_le]
        push_cast
        exact div_nonpos_of_nonpos_of_nonneg (by linarith) (le_of_lt hfi)
      have h0 : (⌈(dur - t) / fi⌉).toNat = 0 := by omega
      rw [h0]
      simp [whileTimes, ht]

theorem loopTimes_eq_map (dur fi : ℚ) (hfi : 0 < fi) (t : ℚ) :
    loopTimes dur fi t =
      (List.range (⌈(dur - t) / fi⌉).toNat).map (fun k : ℕ => t + (k : ℚ) * fi) := by
  unfold loopTimes numIters
  rw [if_pos hfi]
  exact whileTimes_eq_map dur fi hfi _ t le_rfl

theorem whileTimes_stable (dur fi : ℚ) (fuel : ℕ) (t : ℚ)
    (h : numIters dur fi t ≤ fuel) : whileTimes dur fi fuel t = loopTimes dur fi t := by
  by_cases hfi : 0 < fi
  · rw [loopTimes_eq_map dur fi hfi]
    apply whileTimes_eq_map dur fi hfi
    unfold numIters at h
    rwa [if_pos hfi] at h
  · unfold numIters at h
    rw [if_neg hfi] at h
    obtain ⟨f, rfl⟩ : ∃ f, fuel = f + 1 := ⟨fuel - 1, by omega⟩
    unfold loopTimes numIters
    rw [if_neg hfi]
    show whileTimes dur fi (f + 1) t = whileTimes dur fi 1 t
    by_cases ht : t < dur <;> simp [whileTimes, ht, hfi]

theorem loopTimes_length (dur fi : ℚ) :
    (loopTimes dur fi 0).length =
      if 0 < fi then (⌈dur / fi⌉).toNat else (if 0 < dur then 1 else 0) := by
  by_cases hfi : 0 < fi
  · rw [loopTimes_eq_map dur fi hfi 0, if_pos hfi]
    simp
  · rw [if_neg hfi]
    unfold loopTimes numIters
    rw [if_neg hfi]
    by_cases hd : (0 : ℚ) < dur <;> simp [whileTimes, hd, hfi]

theorem mem_loopTimes (dur fi : ℚ) (hfi : 0 < fi) {t : ℚ}
    (h : t ∈ loopTimes dur fi 0) : ∃ k : ℕ, t = (k : ℚ) * fi ∧ t < dur := by
  rw [loopTimes_eq_map dur fi hfi 0] at h
  simp only [List.mem_map, List.mem_range] at h
  obtain ⟨k, hk, rfl⟩ := h
  have hlt : ((k : ℤ) : ℚ) < (dur - 0) / fi := Int.lt_ceil.mp (by omega)
  rw [sub_zero, lt_div_iff₀ hfi] at hlt
  push_cast at hlt
  exact ⟨k, by ring, by linarith⟩

theorem loopTimes_chain (dur fi : ℚ) (hfi : 0 < fi) :
    (loopTimes dur fi 0).Pairwise (fun a b => a + fi ≤ b) := by
  rw [loopTimes_eq_map dur fi hfi 0]
  rw [List.pairwise_map]
  apply List.Pairwise.imp ?_ (List.pairwise_lt_range _)
  intro k l hkl
  show (0 : ℚ) + (k : ℚ) * fi + fi ≤ 0 + (l : ℚ) * fi
  have hk1 : ((k : ℚ) + 1) * fi ≤ (l : ℚ) * fi := by
    apply mul_le_mul_of_nonneg_right _ (le_of_lt hfi)
    have : (k : ℚ) + 1 ≤ (l : ℚ) := by exact_mod_cast hkl
    exact this
  nlinarith

theorem loopTimes_sorted (dur fi : ℚ) : (loopTimes dur fi 0).Pairwise (· ≤ ·) := by
  by_cases hfi : 0 < fi
  · exact (loopTimes_chain dur fi hfi).imp (fun h => by linarith)
  · unfold loopTimes numIters
    rw [if_neg hfi]
    by_cases hd : (0 : ℚ) < dur <;> simp [whileTimes, hd, hfi]

theorem loopTimes_nonneg (dur fi : ℚ) {t : ℚ} (h : t ∈ loopTimes dur fi 0) : 0 ≤ t := by
  by_cases hfi : 0 < fi
  · obtain ⟨k, rfl, -⟩ := mem_loopTimes dur fi hfi h
    positivity
  · unfold loopTimes numIters at h
    rw [if_neg hfi] at h
    by_cases hd : (0 : ℚ) < dur <;> simp [whileTimes, hd, hfi] at h
    exact le_of_eq h.symm

theorem loopTimes_lt_dur (dur fi : ℚ) {t : ℚ} (h : t ∈ loopTimes dur fi 0) : t < dur := by
  by_cases hfi : 0 < fi
  · obtain ⟨k, -, h2⟩ := mem_loopTimes dur fi hfi h
    exact h2
  · unfold loopTimes numIters at h
    rw [if_neg hfi] at h
    by_cases hd : (0 : ℚ) < dur <;> simp [whileTimes, hd, hfi] at h
    rw [h]
    exact hd

/-! ### C8: termination of the extraction loop -/

/-- C8: for every configuration (any duration, interval and density) the
extraction loop terminates: with fuel `numIters` the while loop reaches its
exit condition, giving extra fuel never changes the visited windows, and the
number of windows has the closed form below; in particular when
`duration = 0` and `interval ≤ 0` the plan is empty and a run plans and
writes no frames. -/
theorem C8_loop_terminates :
    (∀ (dur fi : ℚ) (fuel : ℕ), numIters dur fi 0 ≤ fuel →
        whileTimes dur fi fuel 0 = loopTimes dur fi 0) ∧
    (∀ dur fi : ℚ, (loopTimes dur fi 0).length =
        if 0 < fi then (⌈dur / fi⌉).toNat else (if 0 < dur then 1 else 0)) ∧
    (∀ (fps : ℚ) (total : ℤ) (interval : ℚ) (density : ℤ),
        (if 0 < fps then (total : ℚ) / fps else 0) = 0 → interval ≤ 0 →
        samplingPlan fps total interval density = []) ∧
    (∀ (o : Oracles) (cfg : Config), o.openOk = true → videoDuration o = 0 →
        cfg.intervalSeconds ≤ 0 →
        (run o cfg).files = [] ∧ (run o cfg).attempted = [] ∧
        (run o cfg).events = [Event.finished 0]) := by
  refine ⟨fun dur fi fuel h => whileTimes_stable dur fi fuel 0 h,
    fun dur fi => loopTimes_length dur fi, ?_, ?_⟩
  · intro fps total interval density hd hI
    simp only [samplingPlan, hd, if_neg (not_lt.mpr hI)]
    simp [loopTimes, numIters, whileTimes]
  · intro o cfg hopen hd hI
    have hfi : effectiveInterval o cfg = 0 := by
      unfold effectiveInterval
      rw [if_neg (not_lt.mpr hI), hd]
    simp only [run, hopen, if_true, hd, hfi]
    simp [loopTimes, numIters, whileTimes, runLoop]

/-- Witness for C8 at concrete inputs. -/
theorem C8_loop_terminates_w :
    whileTimes 0 0 5 0 = loopTimes 0 0 0 ∧
    samplingPlan 1 0 0 1 = [] ∧
    (run ⟨true, 1, 0, 4, 4, fun _ => ReadRes.ok ⟨4, 4⟩, fun _ => WriteRes.ok⟩
        ⟨"clip.mp4", "out", 0, 1, none⟩).files = [] := by
  refine ⟨C8_loop_terminates.1 0 0 5 ?_, C8_loop_terminates.2.2.1 1 0 0 1 ?_ ?_,
    (C8_loop_terminates.2.2.2 _ _ rfl ?_ ?_).1⟩
  · norm_num [numIters]
  · norm_num
  · norm_num
  · norm_num [videoDuration]
  · norm_num

/-! ### C10: no directory creation on the open-failure path -/

/-- C10: if opening the video fails the worker emits the error event and
returns before the output directory is created — nothing is created or
written on that path; directory creation happens only once the open check
has succeeded. -/
theorem C10_open_fail_before_dir :
    ∀ (o : Oracles) (cfg : Config),
      (o.openOk = false →
        (run o cfg).dirCreated = false ∧ (run o cfg).files = [] ∧
        (run o cfg).events = [Event.error ("Failed to open video: " ++ cfg.videoPath)]) ∧
      (o.openOk = true → (run o cfg).dirCreated = true) := by
  intro o cfg
  constructor
  · intro h
    simp [run, h]
  · intro h
    simp only [run, h, if_true]
    split <;> rfl

/-- Witness for C10 at concrete inputs. -/
theorem C10_open_fail_before_dir_w :
    (run ⟨false, 1, 1, 4, 4, fun _ => ReadRes.ok ⟨4, 4⟩, fun _ => WriteRes.ok⟩
        ⟨"clip.mp4", "out", 1, 1, none⟩).dirCreated = false ∧
    (run ⟨true, 1, 1, 4, 4, fun _ => ReadRes.ok ⟨4, 4⟩, fun _ => WriteRes.ok⟩
        ⟨"clip.mp4", "out", 1, 1, none⟩).dirCreated = true := by
  exact ⟨((C10_open_fail_before_dir _ _).1 rfl).1, (C10_open_fail_before_dir _ _).2 rfl⟩

/-! ### C4: the display-to-video coordinate mapper -/

theorem npSliceLen_of_nonneg (len : ℕ) (i j : ℤ) (hi : 0 ≤ i) (hj : 0 ≤ j) :
    npSliceLen len i j = (min j (len : ℤ) - min i (len : ℤ)).toNat := by
  unfold npSliceLen
  rw [if_neg (not_lt.mpr hi), if_neg (not_lt.mpr hj)]

/-- C4 counterexample: a 1x1 display selection at the content origin, with the
video at half the displayed scale, maps to the stored zero-area rectangle
`(0, 0, 0, 0)` instead of `None`. -/
theorem C4_mapper_cex :
    on_roi_selected 0 0 1 1 200 200 200 200 100 100 = some ⟨0, 0, 0, 0⟩ := by
  norm_num [on_roi_selected, clampRoi, pyint]

/-- C4 (amended): the mapper returns `None` exactly when the offset-adjusted
top-left lies outside `[0, contentSize)` on either axis; whenever the top-left
lies inside, it returns a rectangle — clamped so that `x, y` are within the
video bounds and `width, height` fit the remaining extent — even when the
scaled-and-clamped width or height is `≤ 0`, so zero-area ROIs can be
produced. -/
theorem C4_mapper_none_iff :
    ∀ x y width height lw lh pw ph vw vh : ℤ,
      (on_roi_selected x y width height lw lh pw ph vw vh = none ↔
        (x - Int.fdiv (lw - pw) 2 < 0 ∨ y - Int.fdiv (lh - ph) 2 < 0 ∨
         pw ≤ x - Int.fdiv (lw - pw) 2 ∨ ph ≤ y - Int.fdiv (lh - ph) 2)) ∧
      (∀ r, on_roi_selected x y width height lw lh pw ph vw vh = some r →
        0 < vw → 0 < vh →
        0 ≤ r.x ∧ r.x < vw ∧ 0 ≤ r.y ∧ r.y < vh ∧
        r.w ≤ vw - r.x ∧ r.h ≤ vh - r.y) := by
  intro x y width height lw lh pw ph vw vh
  by_cases hc : (x - Int.fdiv (lw - pw) 2 < 0 ∨ y - Int.fdiv (lh - ph) 2 < 0 ∨
      pw ≤ x - Int.fdiv (lw - pw) 2 ∨ ph ≤ y - Int.fdiv (lh - ph) 2)
  · constructor
    · simp only [on_roi_selected, if_pos hc]
      exact iff_of_true trivial hc
    · intro r hr
      simp only [on_roi_selected, if_pos hc] at hr
      exact absurd hr (by simp)
  · constructor
    · simp only [on_roi_selected, if_neg hc]
      exact iff_of_false (by simp) hc
    · intro r hr hvw hvh
      simp only [on_roi_selected, if_neg hc, Option.some.injEq] at hr
      subst hr
      unfold clampRoi
      dsimp only
      omega

/-- Witness for C4 at concrete inputs: one letterboxed drag that maps to
`None`, and one in-content drag whose mapped rectangle satisfies the bounds. -/
theorem C4_mapper_none_iff_w :
    on_roi_selected 0 0 10 10 800 600 700 600 800 600 = none ∧
    (0 ≤ (Rect.mk 5 5 10 10).x ∧ (Rect.mk 5 5 10 10).x < 800 ∧
     0 ≤ (Rect.mk 5 5 10 10).y ∧ (Rect.mk 5 5 10 10).y < 600 ∧
     (Rect.mk 5 5 10 10).w ≤ 800 - (Rect.mk 5 5 10 10).x ∧
     (Rect.mk 5 5 10 10).h ≤ 600 - (Rect.mk 5 5 10 10).y) := by
  constructor
  · exact (C4_mapper_none_iff 0 0 10 10 800 600 700 600 800 600).1.mpr (by decide)
  · have hsome : on_roi_selected 5 5 10 10 800 600 800 600 800 600 = some ⟨5, 5, 10, 10⟩ := by
      norm_num [on_roi_selected, clampRoi, pyint]
    exact (C4_mapper_none_iff 5 5 10 10 800 600 800 600 800 600).2 _ hsome
      (by norm_num) (by norm_num)

/-! ### C5: the cropper -/

theorem cropFrame_pos (r : Rect) (vw vh : ℤ) (f : Frame)
    (hw : (f.w : ℤ) = vw) (hh : (f.h : ℤ) = vh) (h1 : 0 < vw) (h2 : 0 < vh) :
    0 < (cropFrame r vw vh f).h ∧ 0 < (cropFrame r vw vh f).w := by
  have heq : cropFrame r vw vh f =
      if 0 < (clampRoi r vw vh).w ∧ 0 < (clampRoi r vw vh).h then
        { h := npSliceLen f.h (clampRoi r vw vh).y
                 ((clampRoi r vw vh).y + (clampRoi r vw vh).h),
          w := npSliceLen f.w (clampRoi r vw vh).x
                 ((clampRoi r vw vh).x + (clampRoi r vw vh).w) }
      else f := rfl
  rw [heq]
  by_cases hg : 0 < (clampRoi r vw vh).w ∧ 0 < (clampRoi r vw vh).h
  · rw [if_pos hg]
    obtain ⟨hgw, hgh⟩ := hg
    unfold clampRoi at hgw hgh ⊢
    dsimp only at hgw hgh ⊢
    constructor
    · rw [npSliceLen_of_nonneg _ _ _ (by omega) (by omega)]
      omega
    · rw [npSliceLen_of_nonneg _ _ _ (by omega) (by omega)]
      omega
  · rw [if_neg hg]
    omega

/-- C5: the cropper re-clamps the ROI against the actual frame dimensions —
for example `(190,90,50,50)` against a 200x100 frame crops to
`(190,90,10,10)`, giving a 10x10 image; if the clamped region has zero area
the full uncropped frame is returned; and on any frame whose positive
dimensions agree with the clamping bounds the crop never yields an empty
image. -/
theorem C5_crop_reclamps_nonempty :
    (∀ (r : Rect) (vw vh : ℤ) (f : Frame), (f.w : ℤ) = vw → (f.h : ℤ) = vh →
      0 < vw → 0 < vh → 0 < (cropFrame r vw vh f).h ∧ 0 < (cropFrame r vw vh f).w) ∧
    (∀ (r : Rect) (vw vh : ℤ) (f : Frame),
      ¬(0 < (clampRoi r vw vh).w ∧ 0 < (clampRoi r vw vh).h) →
      cropFrame r vw vh f = f) ∧
    clampRoi ⟨190, 90, 50, 50⟩ 200 100 = ⟨190, 90, 10, 10⟩ ∧
    cropFrame ⟨190, 90, 50, 50⟩ 200 100 ⟨100, 200⟩ = ⟨10, 10⟩ := by
  refine ⟨fun r vw vh f hw hh h1 h2 => cropFrame_pos r vw vh f hw hh h1 h2, ?_, ?_, ?_⟩
  · intro r vw vh f hg
    have heq : cropFrame r vw vh f =
        if 0 < (clampRoi r vw vh).w ∧ 0 < (clampRoi r vw vh).h then
          { h := npSliceLen f.h (clampRoi r vw vh).y
                   ((clampRoi r vw vh).y + (clampRoi r vw vh).h),
            w := npSliceLen f.w (clampRoi r vw vh).x
                   ((clampRoi r vw vh).x + (clampRoi r vw vh).w) }
        else f := rfl
    rw [heq, if_neg hg]
  · decide
  · decide

/-- Witness for C5 at concrete inputs: the claim's own example never yields
an empty image. -/
theorem C5_crop_reclamps_nonempty_w :
    0 < (cropFrame ⟨190, 90, 50, 50⟩ 200 100 ⟨100, 200⟩).h ∧
    0 < (cropFrame ⟨190, 90, 50, 50⟩ 200 100 ⟨100, 200⟩).w := by
  exact C5_crop_reclamps_nonempty.1 ⟨190, 90, 50, 50⟩ 200 100 ⟨100, 200⟩
    (by decide) (by decide) (by decide) (by decide)

/-! ### linspace facts -/

theorem linspaceInt_length (a b : ℤ) (num : ℕ) : (linspaceInt a b num).length = num := by
  by_cases h0 : num = 0
  · simp [linspaceInt, h0]
  · by_cases h1 : num = 1
    · simp [linspaceInt, h0, h1]
    · simp [linspaceInt, h0, h1]

theorem linspaceInt_head (a b : ℤ) (num : ℕ) (h : 1 ≤ num) :
    (linspaceInt a b num).head? = some a := by
  by_cases h1 : num = 1
  · simp [linspaceInt, h1]
  · have h2 : 2 ≤ num := by omega
    unfold linspaceInt
    rw [if_neg (by omega), if_neg h1]
    obtain ⟨k, rfl⟩ : ∃ k, num = k + 1 := ⟨num - 1, by omega⟩
    rw [List.range_succ_eq_map]
    simp only [List.map_cons, List.head?_cons, Option.some.injEq]
    norm_num [pyint_intCast]

theorem linspaceInt_getLast (a b : ℤ) (num : ℕ) (h : 2 ≤ num) :
    (linspaceInt a b num).getLast? = some b := by
  unfold linspaceInt
  rw [if_neg (by omega), if_neg (by omega)]
  obtain ⟨k, hk1, rfl⟩ : ∃ k, 1 ≤ k ∧ num = k + 1 := ⟨num - 1, by omega, by omega⟩
  rw [List.range_succ, List.map_append, List.getLast?_append]
  simp only [List.map_cons, List.map_nil, List.getLast?_singleton]
  have hkq : ((k : ℚ)) ≠ 0 := by
    have : (0 : ℚ) < (k : ℚ) := by exact_mod_cast hk1
    linarith
  have hval : (a : ℚ) + (k : ℚ) * ((b : ℚ) - (a : ℚ)) / (((k + 1 : ℕ) : ℚ) - 1) =
      ((b : ℤ) : ℚ) := by
    push_cast
    field_simp
  rw [hval, pyint_intCast]
  simp

theorem linspaceInt_mem_bounds (a b : ℤ) (num : ℕ) (hab : a ≤ b) {x : ℤ}
    (hx : x ∈ linspaceInt a b num) : a ≤ x ∧ x ≤ b := by
  unfold linspaceInt at hx
  by_cases h0 : num = 0
  · rw [if_pos h0] at hx
    simp at hx
  · rw [if_neg h0] at hx
    by_cases h1 : num = 1
    · rw [if_pos h1] at hx
      simp only [List.mem_singleton] at hx
      omega
    · rw [if_neg h1] at hx
      simp only [List.mem_map, List.mem_range] at hx
      obtain ⟨i, hi, rfl⟩ := hx
      have hd : (0 : ℚ) < (num : ℚ) - 1 := by
        have h2 : (2 : ℕ) ≤ num := by omega
        have h2q : (2 : ℚ) ≤ (num : ℚ) := by exact_mod_cast h2
        linarith
      have hba : (0 : ℚ) ≤ (b : ℚ) - (a : ℚ) := by
        have : (a : ℚ) ≤ (b : ℚ) := by exact_mod_cast hab
        linarith
      have hiq : (i : ℚ) ≤ (num : ℚ) - 1 := by
        have h5 : i + 1 ≤ num := hi
        have h6 : ((i : ℚ)) + 1 ≤ (num : ℚ) := by exact_mod_cast h5
        linarith
      constructor
      · apply le_pyint
        have hnn : (0 : ℚ) ≤ (i : ℚ) * ((b : ℚ) - (a : ℚ)) / ((num : ℚ) - 1) :=
          div_nonneg (mul_nonneg (by positivity) hba) (le_of_lt hd)
        linarith
      · apply pyint_le
        have hub : (i : ℚ) * ((b : ℚ) - (a : ℚ)) / ((num : ℚ) - 1) ≤ (b : ℚ) - (a : ℚ) := by
          rw [div_le_iff₀ hd]
          nlinarith
        linarith

theorem linspaceInt_sorted (a b : ℤ) (num : ℕ) (hab : a ≤ b) :
    (linspaceInt a b num).Pairwise (· ≤ ·) := by
  unfold linspaceInt
  by_cases h0 : num = 0
  · rw [if_pos h0]
    exact List.Pairwise.nil
  · rw [if_neg h0]
    by_cases h1 : num = 1
    · rw [if_pos h1]
      simp
    · rw [if_neg h1]
      rw [List.pairwise_map]
      apply List.Pairwise.imp ?_ (List.pairwise_lt_range _)
      intro i j hij
      apply pyint_mono
      have hd : (0 : ℚ) < (num : ℚ) - 1 := by
        have h2 : (2 : ℕ) ≤ num := by omega
        have h2q : (2 : ℚ) ≤ (num : ℚ) := by exact_mod_cast h2
        linarith
      have hba : (0 : ℚ) ≤ (b : ℚ) - (a : ℚ) := by
        have : (a : ℚ) ≤ (b : ℚ) := by exact_mod_cast hab
        linarith
      have hij' : (i : ℚ) ≤ (j : ℚ) := by exact_mod_cast le_of_lt hij
      have hmono : (i : ℚ) * ((b : ℚ) - (a : ℚ)) / ((num : ℚ) - 1) ≤
          (j : ℚ) * ((b : ℚ) - (a : ℚ)) / ((num : ℚ) - 1) := by
        apply div_le_div_of_nonneg_right ?_ hd.le
        exact mul_le_mul_of_nonneg_right hij' hba
      linarith

/-! ### Per-window plan facts -/

theorem windowIndices_eq_pos (fps : ℚ) (total density : ℤ) (fi t : ℚ)
    (h : 0 < min ((density : ℚ) * fi)
      ((endFrame fps total fi t : ℚ) - (startFrame fps t : ℚ))) :
    windowIndices fps total density fi t =
      linspaceInt (startFrame fps t) (endFrame fps total fi t - 1)
        (pyint (min ((density : ℚ) * fi)
          ((endFrame fps total fi t : ℚ) - (startFrame fps t : ℚ)))).toNat := by
  simp only [windowIndices]
  rw [if_pos h]

theorem windowIndices_eq_nonpos (fps : ℚ) (total density : ℤ) (fi t : ℚ)
    (h : ¬ 0 < min ((density : ℚ) * fi)
      ((endFrame fps total fi t : ℚ) - (startFrame fps t : ℚ))) :
    windowIndices fps total density fi t =
      if startFrame fps t < total then [startFrame fps t] else [] := by
  simp only [windowIndices]
  rw [if_neg h]

theorem start_le_end_sub_one (fps : ℚ) (total density : ℤ) (fi t : ℚ)
    (h : 0 < min ((density : ℚ) * fi)
      ((endFrame fps total fi t : ℚ) - (startFrame fps t : ℚ))) :
    startFrame fps t ≤ endFrame fps total fi t - 1 := by
  have h2 : (0 : ℚ) < (endFrame fps total fi t : ℚ) - (startFrame fps t : ℚ) :=
    lt_of_lt_of_le h (min_le_right _ _)
  have h3 : startFrame fps t < endFrame fps total fi t := by
    exact_mod_cast sub_pos.mp h2
  omega

theorem windowIndices_sorted (fps : ℚ) (total density : ℤ) (fi t : ℚ) :
    (windowIndices fps total density fi t).Pairwise (· ≤ ·) := by
  by_cases hm : 0 < min ((density : ℚ) * fi)
      ((endFrame fps total fi t : ℚ) - (startFrame fps t : ℚ))
  · rw [windowIndices_eq_pos fps total density fi t hm]
    exact linspaceInt_sorted _ _ _ (start_le_end_sub_one fps total density fi t hm)
  · rw [windowIndices_eq_nonpos fps total density fi t hm]
    by_cases hs : startFrame fps t < total
    · rw [if_pos hs]
      simp
    · rw [if_neg hs]
      exact List.Pairwise.nil

theorem windowIndices_lower (fps : ℚ) (total density : ℤ) (fi t : ℚ) {x : ℤ}
    (hx : x ∈ windowIndices fps total density fi t) : startFrame fps t ≤ x := by
  by_cases hm : 0 < min ((density : ℚ) * fi)
      ((endFrame fps total fi t : ℚ) - (startFrame fps t : ℚ))
  · rw [windowIndices_eq_pos fps total density fi t hm] at hx
    exact (linspaceInt_mem_bounds _ _ _ (start_le_end_sub_one fps total density fi t hm) hx).1
  · rw [windowIndices_eq_nonpos fps total density fi t hm] at hx
    by_cases hs : startFrame fps t < total
    · rw [if_pos hs] at hx
      simp only [List.mem_singleton] at hx
      omega
    · rw [if_neg hs] at hx
      simp at hx

theorem windowIndices_upper (fps : ℚ) (total density : ℤ) (fi t : ℚ)
    (hfi : 0 ≤ fi) (hfps : 0 ≤ fps) {x : ℤ}
    (hx : x ∈ windowIndices fps total density fi t) : x ≤ startFrame fps (t + fi) := by
  have hstep : startFrame fps t ≤ startFrame fps (t + fi) := by
    unfold startFrame
    apply pyint_mono
    nlinarith
  by_cases hm : 0 < min ((density : ℚ) * fi)
      ((endFrame fps total fi t : ℚ) - (startFrame fps t : ℚ))
  · rw [windowIndices_eq_pos fps total density fi t hm] at hx
    have hub :=
      (linspaceInt_mem_bounds _ _ _ (start_le_end_sub_one fps total density fi t hm) hx).2
    have hend : endFrame fps total fi t ≤ startFrame fps (t + fi) := by
      unfold endFrame startFrame
      apply pyint_mono
      exact min_le_left _ _
    omega
  · rw [windowIndices_eq_nonpos fps total density fi t hm] at hx
    by_cases hs : startFrame fps t < total
    · rw [if_pos hs] at hx
      simp only [List.mem_singleton] at hx
      omega
    · rw [if_neg hs] at hx
      simp at hx

/-! ### C1: per-window emission -/

/-- C1 (amended): for the window at time `t` the branch tests the unfloored
value `m = min(density * effectiveInterval, endFrame - startFrame)` while the
emitted count is `target = floor(m)`. When `0 < m`, exactly `target` indices
are emitted (none at all when `target = 0`), all lying in
`[startFrame, endFrame - 1]` in non-decreasing order, starting at
`startFrame` when `target ≥ 1` and ending at `endFrame - 1` when
`target ≥ 2`. When `m ≤ 0`, the single index `startFrame` is emitted if
`startFrame < frameCount`, and nothing otherwise. -/
theorem C1_window_emission_amended (fps : ℚ) (total density : ℤ) (fi t : ℚ) :
    (0 < min ((density : ℚ) * fi)
        ((endFrame fps total fi t : ℚ) - (startFrame fps t : ℚ)) →
      (windowIndices fps total density fi t).length =
        (pyint (min ((density : ℚ) * fi)
          ((endFrame fps total fi t : ℚ) - (startFrame fps t : ℚ)))).toNat ∧
      (1 ≤ pyint (min ((density : ℚ) * fi)
          ((endFrame fps total fi t : ℚ) - (startFrame fps t : ℚ))) →
        (windowIndices fps total density fi t).head? = some (startFrame fps t)) ∧
      (2 ≤ pyint (min ((density : ℚ) * fi)
          ((endFrame fps total fi t : ℚ) - (startFrame fps t : ℚ))) →
        (windowIndices fps total density fi t).getLast? =
          some (endFrame fps total fi t - 1)) ∧
      (∀ x ∈ windowIndices fps total density fi t,
        startFrame fps t ≤ x ∧ x ≤ endFrame fps total fi t - 1) ∧
      (windowIndices fps total density fi t).Pairwise (· ≤ ·)) ∧
    (min ((density : ℚ) * fi)
        ((endFrame fps total fi t : ℚ) - (startFrame fps t : ℚ)) ≤ 0 →
      (startFrame fps t < total →
        windowIndices fps total density fi t = [startFrame fps t]) ∧
      (total ≤ startFrame fps t → windowIndices fps total density fi t = [])) := by
  constructor
  · intro hm
    have hab := start_le_end_sub_one fps total density fi t hm
    rw [windowIndices_eq_pos fps total density fi t hm]
    refine ⟨linspaceInt_length _ _ _, ?_, ?_,
      fun x hx => linspaceInt_mem_bounds _ _ _ hab hx, linspaceInt_sorted _ _ _ hab⟩
    · intro h1
      apply linspaceInt_head
      omega
    · intro h2
      apply linspaceInt_getLast
      omega
  · intro hm
    rw [windowIndices_eq_nonpos fps total density fi t (not_lt.mpr hm)]
    constructor
    · intro hs
      rw [if_pos hs]
    · intro hs
      rw [if_neg (not_lt.mpr hs)]

/-- C1 counterexample: with fps = 2, frameCount = 2, interval = 1/2 and
density = 1, each window has unfloored target `m = 1/2 > 0` but
`target = floor(m) = 0`, so the code emits no index at all — whereas the
claim (`target ≤ 0` and `startFrame < frameCount`) requires the single index
`startFrame` per window; the whole sampling plan is empty. -/
theorem C1_window_emission_cex :
    windowIndices 2 2 1 (1/2) 0 = [] ∧
    pyint (min (((1 : ℤ) : ℚ) * (1/2))
      ((endFrame 2 2 (1/2) 0 : ℚ) - (startFrame 2 0 : ℚ))) ≤ 0 ∧
    startFrame 2 0 < 2 ∧
    samplingPlan 2 2 (1/2) 1 = [] := by
  have hs : startFrame 2 0 = 0 := by norm_num [startFrame, pyint]
  have he : endFrame 2 2 (1/2) 0 = 1 := by norm_num [endFrame, pyint]
  have hs2 : startFrame 2 (1/2) = 1 := by norm_num [startFrame, pyint]
  have he2 : endFrame 2 2 (1/2) (1/2) = 2 := by norm_num [endFrame, pyint]
  have hm0 : pyint (min (((1 : ℤ) : ℚ) * (1/2))
      ((endFrame 2 2 (1/2) 0 : ℚ) - (startFrame 2 0 : ℚ))) = 0 := by
    rw [hs, he]
    norm_num [pyint]
  have hw0 : windowIndices 2 2 1 (1/2) 0 = [] := by
    rw [windowIndices_eq_pos 2 2 1 (1/2) 0 (by rw [hs, he]; norm_num), hm0]
    rfl
  have hm2 : pyint (min (((1 : ℤ) : ℚ) * (1/2))
      ((endFrame 2 2 (1/2) (1/2) : ℚ) - (startFrame 2 (1/2) : ℚ))) = 0 := by
    rw [hs2, he2]
    norm_num [pyint]
  have hw2 : windowIndices 2 2 1 (1/2) (1/2) = [] := by
    rw [windowIndices_eq_pos 2 2 1 (1/2) (1/2) (by rw [hs2, he2]; norm_num), hm2]
    rfl
  have hlt : loopTimes 1 (1/2) 0 = [0, 1/2] := by
    rw [loopTimes_eq_map 1 (1/2) (by norm_num) 0]
    have hc : ⌈(1 - 0 : ℚ) / (1/2)⌉ = 2 := by norm_num
    rw [hc, show (2 : ℤ).toNat = 2 from rfl]
    norm_num [List.range_succ]
  refine ⟨hw0, by rw [hm0], by rw [hs]; norm_num, ?_⟩
  have hdur : (if 0 < (2 : ℚ) then ((2 : ℤ) : ℚ) / (2 : ℚ) else 0) = 1 := by norm_num
  simp only [samplingPlan, hdur]
  have hfi : (if 0 < (1/2 : ℚ) then (1/2 : ℚ) else (1 : ℚ)) = 1/2 := by norm_num
  rw [hfi, hlt]
  simp only [List.map_cons, List.map_nil, hw0, hw2, List.flatten_cons, List.flatten_nil,
    List.nil_append, List.append_nil]

/-- Witness for C1 at concrete inputs: a full window (fps 30, 300 frames,
2-second interval, density 3 at t = 0) and a degenerate window (interval 0,
t = 0) exercising both branches. -/
theorem C1_window_emission_amended_w :
    (windowIndices 30 300 3 2 0).length =
      (pyint (min (((3 : ℤ) : ℚ) * 2)
        ((endFrame 30 300 2 0 : ℚ) - (startFrame 30 0 : ℚ)))).toNat ∧
    (windowIndices 30 300 3 2 0).head? = some (startFrame 30 0) ∧
    (windowIndices 30 300 3 2 0).getLast? = some (endFrame 30 300 2 0 - 1) ∧
    windowIndices 1 5 1 0 0 = [startFrame 1 0] := by
  have hs : startFrame 30 0 = 0 := by norm_num [startFrame, pyint]
  have he : endFrame 30 300 2 0 = 60 := by norm_num [endFrame, pyint]
  have hm : (0 : ℚ) < min (((3 : ℤ) : ℚ) * 2)
      ((endFrame 30 300 2 0 : ℚ) - (startFrame 30 0 : ℚ)) := by
    rw [hs, he]
    norm_num
  have hp : pyint (min (((3 : ℤ) : ℚ) * 2)
      ((endFrame 30 300 2 0 : ℚ) - (startFrame 30 0 : ℚ))) = 6 := by
    rw [hs, he]
    norm_num [pyint]
  obtain ⟨hlen, hhead, hlast, -, -⟩ := (C1_window_emission_amended 30 300 3 2 0).1 hm
  have hs1 : startFrame 1 0 = 0 := by norm_num [startFrame, pyint]
  have he1 : endFrame 1 5 0 0 = 0 := by norm_num [endFrame, pyint]
  have hm1 : min (((1 : ℤ) : ℚ) * 0)
      ((endFrame 1 5 0 0 : ℚ) - (startFrame 1 0 : ℚ)) ≤ 0 := by
    rw [hs1, he1]
    norm_num
  refine ⟨hlen, hhead (by rw [hp]; norm_num), hlast (by rw [hp]; norm_num), ?_⟩
  exact ((C1_window_emission_amended 1 5 1 0 0).2 hm1).1 (by rw [hs1]; norm_num)

/-! ### C9: global monotonicity of planned frame indices -/

/-- C9: for every valid configuration (fps > 0) the frame indices of the
entire sampling plan are non-decreasing globally, across window boundaries
as well as within each window. -/
theorem C9_plan_indices_monotone (fps : ℚ) (total : ℤ) (interval : ℚ) (density : ℤ)
    (hfps : 0 < fps) :
    ((samplingPlan fps total interval density).map Prod.snd).Pairwise (· ≤ ·) := by
  simp only [samplingPlan]
  set dur : ℚ := if 0 < fps then (total : ℚ) / fps else 0 with hdur
  set fi : ℚ := if 0 < interval then interval else dur with hfi
  rw [List.map_flatten, List.map_map]
  have hcomp : (List.map Prod.snd ∘ fun t : ℚ =>
      (windowIndices fps total density fi t).map (fun i => (t, i))) =
      fun t : ℚ => windowIndices fps total density fi t := by
    funext t
    simp [List.map_map, Function.comp]
  rw [hcomp]
  by_cases hfi0 : 0 < fi
  · rw [List.pairwise_flatten]
    constructor
    · intro l hl
      simp only [List.mem_map] at hl
      obtain ⟨t, -, rfl⟩ := hl
      exact windowIndices_sorted fps total density fi t
    · rw [List.pairwise_map]
      apply List.Pairwise.imp ?_ (loopTimes_chain dur fi hfi0)
      intro t1 t2 h12 x hx y hy
      have h1 : x ≤ startFrame fps (t1 + fi) :=
        windowIndices_upper fps total density fi t1 hfi0.le hfps.le hx
      have h2 : startFrame fps (t1 + fi) ≤ startFrame fps t2 := by
        unfold startFrame
        apply pyint_mono
        exact mul_le_mul_of_nonneg_right h12 hfps.le
      have h3 : startFrame fps t2 ≤ y := windowIndices_lower fps total density fi t2 hy
      omega
  · have hLT : loopTimes dur fi 0 = if 0 < dur then [0] else [] := by
      unfold loopTimes numIters
      rw [if_neg hfi0]
      by_cases hd : (0 : ℚ) < dur <;> simp [whileTimes, hd, hfi0]
    rw [hLT]
    by_cases hd : (0 : ℚ) < dur
    · rw [if_pos hd]
      simpa using windowIndices_sorted fps total density fi 0
    · rw [if_neg hd]
      simp

/-- Witness for C9 at a concrete configuration. -/
theorem C9_plan_indices_monotone_w :
    ((samplingPlan 30 300 2 3).map Prod.snd).Pairwise (· ≤ ·) :=
  C9_plan_indices_monotone 30 300 2 3 (by norm_num)

/-! ### Step lemmas for the extraction loop -/

theorem fnames_append (c0 : ℕ) (l1 l2 : List ℚ) :
    fnames c0 (l1 ++ l2) = fnames c0 l1 ++ fnames (c0 + l1.length) l2 := by
  induction l1 generalizing c0 with
  | nil => simp [fnames]
  | cons t rest ih =>
    simp only [List.cons_append, fnames, List.length_cons, List.append_eq]
    rw [ih (c0 + 1)]
    have hc : c0 + 1 + rest.length = c0 + (rest.length + 1) := by omega
    rw [hc]

theorem fnames_length (c0 : ℕ) (tl : List ℚ) : (fnames c0 tl).length = tl.length := by
  induction tl generalizing c0 with
  | nil => rfl
  | cons t rest ih => simp [fnames, ih]

theorem mem_fnames (c0 : ℕ) (tl : List ℚ) {s : String} (hs : s ∈ fnames c0 tl) :
    ∃ (j : ℕ) (t : ℚ), j < tl.length ∧ t ∈ tl ∧ s = frameFilename (c0 + j) t := by
  induction tl generalizing c0 with
  | nil => simp [fnames] at hs
  | cons t rest ih =>
    simp only [fnames, List.mem_cons] at hs
    rcases hs with hs | hs
    · exact ⟨0, t, by simp, by simp, by simpa using hs⟩
    · obtain ⟨j, t2, hj, ht2, rfl⟩ := ih (c0 + 1) hs
      exact ⟨j + 1, t2, by simp; omega, by simp [ht2], by congr 1; omega⟩

theorem processIndices_cons_exn (read : ℤ → ReadRes) (write : ℕ → WriteRes)
    (roiC : Option Rect) (t dur : ℚ) (idx : ℤ) (rest : List ℤ) (st : St) (m : String)
    (h : read idx = .exn m) :
    processIndices read write roiC t dur (idx :: rest) st =
      .error (m, { st with attempted := st.attempted ++ [idx] }) := by
  simp [processIndices, h]

theorem processIndices_cons_bad (read : ℤ → ReadRes) (write : ℕ → WriteRes)
    (roiC : Option Rect) (t dur : ℚ) (idx : ℤ) (rest : List ℤ) (st : St)
    (h : read idx = .bad) :
    processIndices read write roiC t dur (idx :: rest) st =
      .ok { st with attempted := st.attempted ++ [idx] } := by
  simp [processIndices, h]

theorem processIndices_cons_skip (read : ℤ → ReadRes) (write : ℕ → WriteRes)
    (roiC : Option Rect) (t dur : ℚ) (idx : ℤ) (rest : List ℤ) (st : St) (f : Frame)
    (h : read idx = .ok f)
    (hs : ¬ 0 < (applyClampedRoi roiC f).h * (applyClampedRoi roiC f).w) :
    processIndices read write roiC t dur (idx :: rest) st =
      processIndices read write roiC t dur rest
        { st with attempted := st.attempted ++ [idx] } := by
  simp [processIndices, h, hs]

theorem processIndices_cons_wexn (read : ℤ → ReadRes) (write : ℕ → WriteRes)
    (roiC : Option Rect) (t dur : ℚ) (idx : ℤ) (rest : List ℤ) (st : St) (f : Frame)
    (m : String) (h : read idx = .ok f)
    (hs : 0 < (applyClampedRoi roiC f).h * (applyClampedRoi roiC f).w)
    (hw : write st.count = .exn m) :
    processIndices read write roiC t dur (idx :: rest) st =
      .error (m, { st with attempted := st.attempted ++ [idx] }) := by
  simp [processIndices, h, hs, hw]

theorem processIndices_cons_write (read : ℤ → ReadRes) (write : ℕ → WriteRes)
    (roiC : Option Rect) (t dur : ℚ) (idx : ℤ) (rest : List ℤ) (st : St) (f : Frame)
    (h : read idx = .ok f)
    (hs : 0 < (applyClampedRoi roiC f).h * (applyClampedRoi roiC f).w)
    (hw : write st.count = .ok) :
    processIndices read write roiC t dur (idx :: rest) st =
      processIndices read write roiC t dur rest
        ⟨st.count + 1, st.events ++ [Event.progress (pctOf t dur)],
         st.files ++ [frameFilename st.count t], st.attempted ++ [idx]⟩ := by
  simp [processIndices, h, hs, hw]

/-- Master invariant of the inner loop over one window: whether it exits
normally or through an exception, it appends `k` identical progress events,
`k` consecutively numbered files stamped with the window time `t`, adds `k`
to the counter, and appends some suffix of attempted indices. -/
theorem processIndices_spec (read : ℤ → ReadRes) (write : ℕ → WriteRes)
    (roiC : Option Rect) (t dur : ℚ) :
    ∀ (l : List ℤ) (st : St), ∃ (k : ℕ) (a : List ℤ),
      (outSt (processIndices read write roiC t dur l st)).count = st.count + k ∧
      (outSt (processIndices read write roiC t dur l st)).events =
        st.events ++ List.replicate k (Event.progress (pctOf t dur)) ∧
      (outSt (processIndices read write roiC t dur l st)).files =
        st.files ++ fnames st.count (List.replicate k t) ∧
      (outSt (processIndices read write roiC t dur l st)).attempted =
        st.attempted ++ a := by
  intro l
  induction l with
  | nil =>
    intro st
    refine ⟨0, [], ?_, ?_, ?_, ?_⟩ <;> simp [processIndices, outSt, fnames]
  | cons idx rest ih =>
    intro st
    cases hread : read idx with
    | exn m =>
      rw [processIndices_cons_exn read write roiC t dur idx rest st m hread]
      refine ⟨0, [idx], ?_, ?_, ?_, ?_⟩ <;> simp [outSt, fnames]
    | bad =>
      rw [processIndices_cons_bad read write roiC t dur idx rest st hread]
      refine ⟨0, [idx], ?_, ?_, ?_, ?_⟩ <;> simp [outSt, fnames]
    | ok f =>
      by_cases hfr : 0 < (applyClampedRoi roiC f).h * (applyClampedRoi roiC f).w
      · cases hwr : write st.count with
        | exn m =>
          rw [processIndices_cons_wexn read write roiC t dur idx rest st f m hread hfr hwr]
          refine ⟨0, [idx], ?_, ?_, ?_, ?_⟩ <;> simp [outSt, fnames]
        | ok =>
          rw [processIndices_cons_write read write roiC t dur idx rest st f hread hfr hwr]
          obtain ⟨k, a, h1, h2, h3, h4⟩ := ih
            ⟨st.count + 1, st.events ++ [Event.progress (pctOf t dur)],
             st.files ++ [frameFilename st.count t], st.attempted ++ [idx]⟩
          dsimp only at h1 h2 h3 h4
          refine ⟨k + 1, idx :: a, ?_, ?_, ?_, ?_⟩
          · rw [h1]
            omega
          · rw [h2]
            simp only [List.append_assoc, List.replicate_succ, List.singleton_append]
          · rw [h3]
            simp only [List.replicate_succ, fnames, List.append_assoc, List.singleton_append]
          · rw [h4]
            simp
      · rw [processIndices_cons_skip read write roiC t dur idx rest st f hread hfr]
        obtain ⟨k, a, h1, h2, h3, h4⟩ := ih { st with attempted := st.attempted ++ [idx] }
        refine ⟨k, idx :: a, ?_, ?_, ?_, ?_⟩
        · rw [h1]
        · rw [h2]
        · rw [h3]
        · rw [h4]
          simp

/-- Master invariant of the outer window loop: the run appends one progress
event and one consecutively numbered file per successful write, each stamped
with its window's start time, with the per-write window times `tl` drawn from
the visited windows in order. -/
theorem runLoop_spec (read : ℤ → ReadRes) (write : ℕ → WriteRes) (roiC : Option Rect)
    (fps : ℚ) (total density : ℤ) (dur fi : ℚ) :
    ∀ (ts : List ℚ) (st : St), ∃ (tl : List ℚ) (a : List ℤ),
      (∀ x ∈ tl, x ∈ ts) ∧
      (ts.Pairwise (· ≤ ·) → tl.Pairwise (· ≤ ·)) ∧
      (outSt (runLoop read write roiC fps total density dur fi ts st)).count =
        st.count + tl.length ∧
      (outSt (runLoop read write roiC fps total density dur fi ts st)).events =
        st.events ++ tl.map (fun x => Event.progress (pctOf x dur)) ∧
      (outSt (runLoop read write roiC fps total density dur fi ts st)).files =
        st.files ++ fnames st.count tl ∧
      (outSt (runLoop read write roiC fps total density dur fi ts st)).attempted =
        st.attempted ++ a := by
  intro ts
  induction ts with
  | nil =>
    intro st
    refine ⟨[], [], ?_, ?_, ?_, ?_, ?_, ?_⟩ <;> simp [runLoop, outSt, fnames]
  | cons t rest ih =>
    intro st
    obtain ⟨k, a1, p1, p2, p3, p4⟩ :=
      processIndices_spec read write roiC t dur (windowIndices fps total density fi t) st
    cases hP : processIndices read write roiC t dur (windowIndices fps total density fi t) st with
    | error e =>
      have hrl : runLoop read write roiC fps total density dur fi (t :: rest) st =
          .error e := by
        simp [runLoop, hP]
      rw [hP] at p1 p2 p3 p4
      refine ⟨List.replicate k t, a1, ?_, ?_, ?_, ?_, ?_, ?_⟩
      · intro x hx
        rw [List.eq_of_mem_replicate hx]
        exact List.mem_cons_self _ _
      · intro _
        exact List.pairwise_replicate.mpr (Or.inr le_rfl)
      · rw [hrl, p1]
        simp
      · rw [hrl, p2]
        simp [List.map_replicate]
      · rw [hrl, p3]
      · rw [hrl, p4]
    | ok st2 =>
      have hrl : runLoop read write roiC fps total density dur fi (t :: rest) st =
          runLoop read write roiC fps total density dur fi rest st2 := by
        simp [runLoop, hP]
      rw [hP] at p1 p2 p3 p4
      simp only [outSt] at p1 p2 p3 p4
      obtain ⟨tl2, a2, q1, q2, q3, q4, q5, q6⟩ := ih st2
      refine ⟨List.replicate k t ++ tl2, a1 ++ a2, ?_, ?_, ?_, ?_, ?_, ?_⟩
      · intro x hx
        rcases List.mem_append.mp hx with hx | hx
        · rw [List.eq_of_mem_replicate hx]
          exact List.mem_cons_self _ _
        · exact List.mem_cons_of_mem _ (q1 x hx)
      · intro hp
        obtain ⟨hhead, htail⟩ := List.pairwise_cons.mp hp
        rw [List.pairwise_append]
        refine ⟨List.pairwise_replicate.mpr (Or.inr le_rfl), q2 htail, ?_⟩
        intro x hx y hy
        rw [List.eq_of_mem_replicate hx]
        exact hhead y (q1 y hy)
      · rw [hrl, q3, p1]
        simp only [List.length_append, List.length_replicate]
        omega
      · rw [hrl, q4, p2]
        simp [List.map_replicate, List.map_append]
      · rw [hrl, q5, p3, p1, fnames_append]
        simp only [List.length_replicate, List.append_assoc]
      · rw [hrl, q6, p4]
        simp

/-- Shape of a full run that passed the open check: files are numbered
`0, 1, ...` and stamped with non-decreasing window times drawn from the plan,
the directory is created, and the run ends in exactly one of the two terminal
shapes — completed (with release) or failed (without release). -/
theorem run_spec (o : Oracles) (cfg : Config) (hopen : o.openOk = true) :
    ∃ tl : List ℚ,
      (∀ x ∈ tl, x ∈ planTimes o cfg) ∧
      tl.Pairwise (· ≤ ·) ∧
      (run o cfg).files = fnames 0 tl ∧
      (run o cfg).dirCreated = true ∧
      (((run o cfg).status = JobStatus.Completed ∧ (run o cfg).released = true ∧
        (run o cfg).events =
          tl.map (fun x => Event.progress (pctOf x (videoDuration o))) ++
            [Event.finished tl.length]) ∨
       (∃ m, (run o cfg).status = JobStatus.Failed ∧ (run o cfg).released = false ∧
        (run o cfg).events =
          tl.map (fun x => Event.progress (pctOf x (videoDuration o))) ++
            [Event.error m])) := by
  obtain ⟨tl, a, h1, h2, h3, h4, h5, h6⟩ := runLoop_spec o.read o.write
    (cfg.roi.map (fun r => clampRoi r o.width o.height)) o.fps o.totalFrames
    cfg.framesPerSecond (videoDuration o) (effectiveInterval o cfg)
    (loopTimes (videoDuration o) (effectiveInterval o cfg) 0) ⟨0, [], [], []⟩
  have hsorted := h2 (loopTimes_sorted _ _)
  refine ⟨tl, h1, hsorted, ?_⟩
  cases hRL : runLoop o.read o.write (cfg.roi.map (fun r => clampRoi r o.width o.height))
      o.fps o.totalFrames cfg.framesPerSecond (videoDuration o) (effectiveInterval o cfg)
      (loopTimes (videoDuration o) (effectiveInterval o cfg) 0) ⟨0, [], [], []⟩ with
  | ok st =>
    have hR : run o cfg = ⟨st.events ++ [Event.finished st.count], .Completed, true, true,
        st.files, st.attempted⟩ := by
      simp [run, hopen, hRL]
    rw [hRL] at h3 h4 h5
    simp only [outSt] at h3 h4 h5
    simp only [List.nil_append, Nat.zero_add] at h3 h4 h5
    rw [hR]
    refine ⟨h5, rfl, Or.inl ⟨rfl, rfl, ?_⟩⟩
    rw [h4, h3]
  | error e =>
    obtain ⟨m, st⟩ := e
    have hR : run o cfg = ⟨st.events ++ [Event.error ("Error extracting frames: " ++ m)],
        .Failed, false, true, st.files, st.attempted⟩ := by
      simp [run, hopen, hRL]
    rw [hRL] at h3 h4 h5
    simp only [outSt] at h3 h4 h5
    simp only [List.nil_append, Nat.zero_add] at h3 h4 h5
    rw [hR]
    refine ⟨h5, rfl, Or.inr ⟨"Error extracting frames: " ++ m, rfl, rfl, ?_⟩⟩
    rw [h4]

/-! ### Progress percentage facts -/

theorem pctOf_eq (t dur : ℚ) (ht : 0 ≤ t) (hd : 0 < dur) :
    pctOf t dur = min ⌊100 * t / dur⌋ 100 := by
  unfold pctOf
  rw [if_pos hd]
  congr 1
  rw [pyint_of_nonneg (by positivity)]
  congr 1
  ring

theorem pctOf_bounds (t dur : ℚ) (ht : 0 ≤ t) : 0 ≤ pctOf t dur ∧ pctOf t dur ≤ 100 := by
  unfold pctOf
  refine ⟨le_min ?_ (by norm_num), min_le_right _ _⟩
  split
  · rename_i hdur
    exact pyint_nonneg (by positivity)
  · exact le_refl 0

theorem pctOf_mono (dur : ℚ) {t1 t2 : ℚ} (h : t1 ≤ t2) (hd : 0 < dur) :
    pctOf t1 dur ≤ pctOf t2 dur := by
  unfold pctOf
  rw [if_pos hd, if_pos hd]
  apply min_le_min _ le_rfl
  apply pyint_mono
  gcongr

theorem filter_isTerminal_map_progress (g : ℚ → ℤ) (tl : List ℚ) :
    ((tl.map (fun x => Event.progress (g x))).filter (fun e => e.isTerminal)) = [] := by
  induction tl with
  | nil => rfl
  | cons t r ih => simp [Event.isTerminal, ih]

/-! ### C3: terminal events and resource release -/

/-- C3 counterexample: a job whose first write raises aborts through the
`except` arm with a single error event, but the capture handle is *not*
released (line 172 sits inside the `try` and is skipped), contradicting the
claim that the worker closes the VideoSource on the failure path. -/
theorem C3_terminal_event_cex :
    (run ⟨true, 1, 1, 4, 4, fun _ => ReadRes.ok ⟨4, 4⟩, fun _ => WriteRes.exn "disk full"⟩
        ⟨"clip.mp4", "out", 1, 1, none⟩).released = false ∧
    (run ⟨true, 1, 1, 4, 4, fun _ => ReadRes.ok ⟨4, 4⟩, fun _ => WriteRes.exn "disk full"⟩
        ⟨"clip.mp4", "out", 1, 1, none⟩).events =
      [Event.error "Error extracting frames: disk full"] ∧
    (run ⟨true, 1, 1, 4, 4, fun _ => ReadRes.ok ⟨4, 4⟩, fun _ => WriteRes.exn "disk full"⟩
        ⟨"clip.mp4", "out", 1, 1, none⟩).status = JobStatus.Failed := by
  have hdur : videoDuration ⟨true, 1, 1, 4, 4, fun _ => ReadRes.ok ⟨4, 4⟩,
      fun _ => WriteRes.exn "disk full"⟩ = 1 := by
    norm_num [videoDuration]
  have hfi : effectiveInterval ⟨true, 1, 1, 4, 4, fun _ => ReadRes.ok ⟨4, 4⟩,
      fun _ => WriteRes.exn "disk full"⟩ ⟨"clip.mp4", "out", 1, 1, none⟩ = 1 := by
    norm_num [effectiveInterval]
  have hlt1 : loopTimes 1 1 0 = [0] := by
    rw [loopTimes_eq_map 1 1 (by norm_num) 0]
    have hc : ⌈(1 - 0 : ℚ) / 1⌉ = 1 := by norm_num
    rw [hc, show (1 : ℤ).toNat = 1 from rfl]
    norm_num [List.range_succ]
  have hs : startFrame 1 0 = 0 := by norm_num [startFrame, pyint]
  have he : endFrame 1 1 1 0 = 1 := by norm_num [endFrame, pyint]
  have hwin : windowIndices 1 1 1 1 0 = [0] := by
    have hm : (0 : ℚ) < min (((1 : ℤ) : ℚ) * 1)
        ((endFrame 1 1 1 0 : ℚ) - (startFrame 1 0 : ℚ)) := by
      rw [hs, he]
      norm_num
    rw [windowIndices_eq_pos 1 1 1 1 0 hm]
    have hp : pyint (min (((1 : ℤ) : ℚ) * 1)
        ((endFrame 1 1 1 0 : ℚ) - (startFrame 1 0 : ℚ))) = 1 := by
      rw [hs, he]
      norm_num [pyint]
    rw [hp, hs, he]
    rfl
  have hpi : processIndices (fun _ => ReadRes.ok ⟨4, 4⟩) (fun _ => WriteRes.exn "disk full")
      none 0 1 [0] ⟨0, [], [], []⟩ = .error ("disk full", ⟨0, [], [], [0]⟩) := by
    rw [processIndices_cons_wexn _ _ _ _ _ 0 [] _ ⟨4, 4⟩ "disk full" rfl
      (by norm_num [applyClampedRoi]) rfl]
    simp
  have hrl : runLoop (fun _ => ReadRes.ok ⟨4, 4⟩) (fun _ => WriteRes.exn "disk full") none
      1 1 1 1 1 [0] ⟨0, [], [], []⟩ = .error ("disk full", ⟨0, [], [], [0]⟩) := by
    simp [runLoop, hwin, hpi]
  have hR : run ⟨true, 1, 1, 4, 4, fun _ => ReadRes.ok ⟨4, 4⟩,
      fun _ => WriteRes.exn "disk full"⟩ ⟨"clip.mp4", "out", 1, 1, none⟩ =
      ⟨[Event.error "Error extracting frames: disk full"], .Failed, false, true, [], [0]⟩ := by
    simp only [run, hdur, hfi, Option.map_none', hlt1, hrl]
    rfl
  exact ⟨by rw [hR], by rw [hR], by rw [hR]⟩

/-- C3 (amended): every run emits exactly one terminal event, as its last
event — a completed event carrying framesWritten on success (after which the
source is released), or a single error event on any failure, after which the
source is *not* released (the source's `cap.release()` is skipped by the
exception path); there is never more than one terminal event and never a
completed event on a failed run. -/
theorem C3_terminal_event_amended (o : Oracles) (cfg : Config) :
    ((run o cfg).events.filter (fun e => e.isTerminal)).length = 1 ∧
    (∃ e, (run o cfg).events.getLast? = some e ∧ e.isTerminal = true) ∧
    ((run o cfg).status = JobStatus.Completed →
      (run o cfg).events.getLast? = some (Event.finished (run o cfg).files.length) ∧
      (run o cfg).released = true) ∧
    ((run o cfg).status = JobStatus.Failed →
      (∃ m, (run o cfg).events.getLast? = some (Event.error m)) ∧
      (run o cfg).released = false) ∧
    ((run o cfg).status = JobStatus.Completed ∨ (run o cfg).status = JobStatus.Failed) := by
  by_cases hopen : o.openOk = true
  · obtain ⟨tl, -, -, hfiles, -, hdisj⟩ := run_spec o cfg hopen
    rcases hdisj with ⟨hst, hrel, hev⟩ | ⟨m, hst, hrel, hev⟩
    · refine ⟨?_, ?_, ?_, ?_, Or.inl hst⟩
      · rw [hev, List.filter_append, filter_isTerminal_map_progress]
        rfl
      · refine ⟨Event.finished tl.length, ?_, rfl⟩
        rw [hev]
        simp [List.getLast?_append]
      · intro _
        refine ⟨?_, hrel⟩
        rw [hev, hfiles, fnames_length]
        simp [List.getLast?_append]
      · intro hF
        rw [hst] at hF
        cases hF
    · refine ⟨?_, ?_, ?_, ?_, Or.inr hst⟩
      · rw [hev, List.filter_append, filter_isTerminal_map_progress]
        rfl
      · refine ⟨Event.error m, ?_, rfl⟩
        rw [hev]
        simp [List.getLast?_append]
      · intro hC
        rw [hst] at hC
        cases hC
      · intro _
        refine ⟨⟨m, ?_⟩, hrel⟩
        rw [hev]
        simp [List.getLast?_append]
  · have ho : o.openOk = false := by
      cases h' : o.openOk
      · rfl
      · exact absurd h' hopen
    have hR : run o cfg = ⟨[Event.error ("Failed to open video: " ++ cfg.videoPath)],
        .Failed, false, false, [], []⟩ := by
      simp [run, ho]
    rw [hR]
    refine ⟨rfl, ⟨Event.error ("Failed to open video: " ++ cfg.videoPath), rfl, rfl⟩,
      ?_, ?_, Or.inr rfl⟩
    · intro h
      simp at h
    · intro _
      exact ⟨⟨"Failed to open video: " ++ cfg.videoPath, rfl⟩, rfl⟩

/-! ### C6: progress events -/

theorem progressVals_append (l1 l2 : List Event) :
    progressVals (l1 ++ l2) = progressVals l1 ++ progressVals l2 := by
  unfold progressVals
  exact List.filterMap_append l1 l2 _

theorem progressVals_map_progress (g : ℚ → ℤ) (tl : List ℚ) :
    progressVals (tl.map (fun x => Event.progress (g x))) = tl.map g := by
  unfold progressVals
  induction tl with
  | nil => rfl
  | cons a l ih => simp only [List.map_cons, List.filterMap_cons, ih]

/-- C6: with positive duration, every progress event of a run carries
percent = floor(100 * windowStart / duration) clamped to [0, 100] for some
window-start time of the plan, the emitted percent sequence is
non-decreasing, and the progress events are followed by exactly one terminal
event, which comes last. -/
theorem C6_progress_monotone (o : Oracles) (cfg : Config) (hopen : o.openOk = true)
    (hd : 0 < videoDuration o) :
    (∀ p, Event.progress p ∈ (run o cfg).events →
      0 ≤ p ∧ p ≤ 100 ∧ ∃ t, t ∈ planTimes o cfg ∧
        p = min ⌊100 * t / videoDuration o⌋ 100) ∧
    (progressVals (run o cfg).events).Pairwise (· ≤ ·) ∧
    ((run o cfg).events.filter (fun e => e.isTerminal)).length = 1 ∧
    (∃ e, (run o cfg).events.getLast? = some e ∧ e.isTerminal = true) := by
  obtain ⟨tl, hmem, hsort, -, -, hdisj⟩ := run_spec o cfg hopen
  have htnn : ∀ x ∈ tl, 0 ≤ x := fun x hx => loopTimes_nonneg _ _ (hmem x hx)
  have hshape : ∃ last, (run o cfg).events =
      tl.map (fun x => Event.progress (pctOf x (videoDuration o))) ++ [last] ∧
      last.isTerminal = true := by
    rcases hdisj with ⟨-, -, hev⟩ | ⟨m, -, -, hev⟩
    · exact ⟨_, hev, rfl⟩
    · exact ⟨_, hev, rfl⟩
  obtain ⟨last, hev, hterm⟩ := hshape
  have hpv2 : progressVals [last] = [] := by
    cases last with
    | progress p => simp [Event.isTerminal] at hterm
    | finished n => rfl
    | error m => rfl
  refine ⟨?_, ?_, ?_, ?_⟩
  · intro p hp
    rw [hev] at hp
    rcases List.mem_append.mp hp with hp | hp
    · obtain ⟨t, ht, hpt⟩ := List.mem_map.mp hp
      have hpeq : pctOf t (videoDuration o) = p := by
        injection hpt
      obtain ⟨hb1, hb2⟩ := pctOf_bounds t (videoDuration o) (htnn t ht)
      refine ⟨hpeq ▸ hb1, hpeq ▸ hb2, t, hmem t ht, ?_⟩
      rw [← hpeq, pctOf_eq t (videoDuration o) (htnn t ht) hd]
    · have := List.mem_singleton.mp hp
      rw [← this] at hterm
      simp [Event.isTerminal] at hterm
  · rw [hev, progressVals_append, progressVals_map_progress, hpv2, List.append_nil]
    rw [List.pairwise_map]
    exact hsort.imp (fun h => pctOf_mono (videoDuration o) h hd)
  · rw [hev, List.filter_append, filter_isTerminal_map_progress]
    simp [List.filter_cons, hterm]
  · refine ⟨last, ?_, hterm⟩
    rw [hev]
    simp [List.getLast?_append]

/-- Witness for C6 at a concrete job with duration 2. -/
theorem C6_progress_monotone_w :
    (progressVals (run ⟨true, 1, 2, 4, 4, fun _ => ReadRes.ok ⟨4, 4⟩, fun _ => WriteRes.ok⟩
        ⟨"clip.mp4", "out", 1, 1, none⟩).events).Pairwise (· ≤ ·) :=
  (C6_progress_monotone _ _ rfl (by norm_num [videoDuration])).2.1

/-! ### C7: file naming and counters -/

/-- C7: every written file of a run is named
`frame_<counter zero-padded to 6 digits>_t<window start to 2 decimals>s.jpg`
with counters exactly `0 .. framesWritten-1` in write order (the counter
advances exactly on successful writes) and timestamps drawn from the plan's
window-start times; on completion the terminal event carries exactly the
number of files written; and the 3rd written frame of a window starting at
t = 4.5 is named `frame_000002_t4.50s.jpg`. -/
theorem C7_filenames (o : Oracles) (cfg : Config) :
    (∃ tl : List ℚ,
      (run o cfg).files = fnames 0 tl ∧
      (∀ x ∈ tl, x ∈ planTimes o cfg) ∧
      (∀ s ∈ (run o cfg).files, ∃ (j : ℕ) (t : ℚ), j < (run o cfg).files.length ∧
        t ∈ planTimes o cfg ∧ s = frameFilename j t) ∧
      ((run o cfg).status = JobStatus.Completed →
        (run o cfg).events.getLast? =
          some (Event.finished ((run o cfg).files.length)))) ∧
    frameFilename 2 (9/2) = "frame_000002_t4.50s.jpg" := by
  have h450 : roundHalfEven ((9/2 : ℚ) * 100) = 450 := by
    unfold roundHalfEven
    norm_num
  have hfmt : fmt2 (9/2) = "4.50" := by
    unfold fmt2
    rw [h450]
    rfl
  have hname : frameFilename 2 (9/2) = "frame_000002_t4.50s.jpg" := by
    unfold frameFilename
    rw [hfmt]
    rfl
  refine ⟨?_, hname⟩
  by_cases hopen : o.openOk = true
  · obtain ⟨tl, hmem, -, hfiles, -, hdisj⟩ := run_spec o cfg hopen
    refine ⟨tl, hfiles, hmem, ?_, ?_⟩
    · intro s hs
      rw [hfiles] at hs
      obtain ⟨j, t, hj, ht, rfl⟩ := mem_fnames 0 tl hs
      refine ⟨j, t, ?_, hmem t ht, by rw [Nat.zero_add]⟩
      rw [hfiles, fnames_length]
      exact hj
    · intro hC
      rcases hdisj with ⟨-, -, hev⟩ | ⟨m, hst, -, -⟩
      · rw [hev, hfiles, fnames_length]
        simp [List.getLast?_append]
      · rw [hst] at hC
        cases hC
  · have ho : o.openOk = false := by
      cases h' : o.openOk
      · rfl
      · exact absurd h' hopen
    have hR : run o cfg = ⟨[Event.error ("Failed to open video: " ++ cfg.videoPath)],
        .Failed, false, false, [], []⟩ := by
      simp [run, ho]
    rw [hR]
    refine ⟨[], rfl, by simp, by simp, ?_⟩
    intro h
    simp at h

/-- Witness for C7: the claim's own filename example. -/
theorem C7_filenames_w : frameFilename 2 (9/2) = "frame_000002_t4.50s.jpg" :=
  (C7_filenames ⟨true, 1, 1, 4, 4, fun _ => ReadRes.ok ⟨4, 4⟩, fun _ => WriteRes.ok⟩
    ⟨"clip.mp4", "out", 1, 1, none⟩).2

/-! ### C2: DecodeError skips the rest of the interval only -/

theorem processIndices_no_exn (read : ℤ → ReadRes) (write : ℕ → WriteRes)
    (roiC : Option Rect) (t dur : ℚ)
    (hre : ∀ i m, read i ≠ ReadRes.exn m) (hwe : ∀ n m, write n ≠ WriteRes.exn m) :
    ∀ (l : List ℤ) (st : St), ∃ st2,
      processIndices read write roiC t dur l st = .ok st2 ∧
      st2.attempted = st.attempted ++ intervalAttempt read l := by
  intro l
  induction l with
  | nil =>
    intro st
    exact ⟨st, rfl, by simp [intervalAttempt]⟩
  | cons idx rest ih =>
    intro st
    cases hread : read idx with
    | exn m => exact absurd hread (hre idx m)
    | bad =>
      rw [processIndices_cons_bad _ _ _ _ _ _ _ _ hread]
      refine ⟨_, rfl, ?_⟩
      simp [intervalAttempt, hread]
    | ok f =>
      by_cases hfr : 0 < (applyClampedRoi roiC f).h * (applyClampedRoi roiC f).w
      · cases hwr : write st.count with
        | exn m => exact absurd hwr (hwe _ m)
        | ok =>
          rw [processIndices_cons_write _ _ _ _ _ _ _ _ _ hread hfr hwr]
          obtain ⟨st2, he, ha⟩ := ih
            ⟨st.count + 1, st.events ++ [Event.progress (pctOf t dur)],
             st.files ++ [frameFilename st.count t], st.attempted ++ [idx]⟩
          refine ⟨st2, he, ?_⟩
          rw [ha]
          dsimp only
          simp [intervalAttempt, hread]
      · rw [processIndices_cons_skip _ _ _ _ _ _ _ _ _ hread hfr]
        obtain ⟨st2, he, ha⟩ := ih { st with attempted := st.attempted ++ [idx] }
        refine ⟨st2, he, ?_⟩
        rw [ha]
        simp [intervalAttempt, hread]

theorem runLoop_no_exn (read : ℤ → ReadRes) (write : ℕ → WriteRes) (roiC : Option Rect)
    (fps : ℚ) (total density : ℤ) (dur fi : ℚ)
    (hre : ∀ i m, read i ≠ ReadRes.exn m) (hwe : ∀ n m, write n ≠ WriteRes.exn m) :
    ∀ (ts : List ℚ) (st : St), ∃ st2,
      runLoop read write roiC fps total density dur fi ts st = .ok st2 ∧
      st2.attempted = st.attempted ++
        (ts.map (fun t => intervalAttempt read
          (windowIndices fps total density fi t))).flatten := by
  intro ts
  induction ts with
  | nil =>
    intro st
    exact ⟨st, rfl, by simp [runLoop]⟩
  | cons t rest ih =>
    intro st
    obtain ⟨st1, hp, hpa⟩ := processIndices_no_exn read write roiC t dur hre hwe
      (windowIndices fps total density fi t) st
    obtain ⟨st2, hr, hra⟩ := ih st1
    refine ⟨st2, ?_, ?_⟩
    · simp [runLoop, hp, hr]
    · rw [hra, hpa]
      simp

/-- C2: when no unexpected exception occurs, a failed read (`ret = False`)
only truncates the current interval: the indices actually attempted are, per
window, the successful prefix plus the first failing index, the job then
continues with the next window, never emits an error event, and still ends
with the completed event carrying the number of files written. -/
theorem C2_decode_error_skips_interval (o : Oracles) (cfg : Config)
    (hopen : o.openOk = true)
    (hre : ∀ i m, o.read i ≠ ReadRes.exn m) (hwe : ∀ n m, o.write n ≠ WriteRes.exn m) :
    (run o cfg).status = JobStatus.Completed ∧
    (run o cfg).events.getLast? = some (Event.finished ((run o cfg).files.length)) ∧
    (∀ m, Event.error m ∉ (run o cfg).events) ∧
    (run o cfg).attempted = ((planTimes o cfg).map (fun t =>
      intervalAttempt o.read (windowIndices o.fps o.totalFrames cfg.framesPerSecond
        (effectiveInterval o cfg) t))).flatten := by
  obtain ⟨st2, hok, hatt⟩ := runLoop_no_exn o.read o.write
    (cfg.roi.map (fun r => clampRoi r o.width o.height)) o.fps o.totalFrames
    cfg.framesPerSecond (videoDuration o) (effectiveInterval o cfg) hre hwe
    (loopTimes (videoDuration o) (effectiveInterval o cfg) 0) ⟨0, [], [], []⟩
  obtain ⟨tl, a, -, -, h3, h4, h5, -⟩ := runLoop_spec o.read o.write
    (cfg.roi.map (fun r => clampRoi r o.width o.height)) o.fps o.totalFrames
    cfg.framesPerSecond (videoDuration o) (effectiveInterval o cfg)
    (loopTimes (videoDuration o) (effectiveInterval o cfg) 0) ⟨0, [], [], []⟩
  rw [hok] at h3 h4 h5
  simp only [outSt] at h3 h4 h5
  simp only [List.nil_append, Nat.zero_add] at h3 h4 h5
  have hR : run o cfg = ⟨st2.events ++ [Event.finished st2.count], .Completed, true, true,
      st2.files, st2.attempted⟩ := by
    simp [run, hopen, hok]
  have hcount : st2.count = st2.files.length := by
    rw [h3, h5, fnames_length]
  refine ⟨by rw [hR], ?_, ?_, ?_⟩
  · rw [hR]
    simp only [List.getLast?_append, List.getLast?_singleton, Option.or]
    rw [hcount]
  · intro m hm
    rw [hR] at hm
    simp only [List.mem_append, List.mem_singleton] at hm
    rcases hm with hm | hm
    · rw [h4] at hm
      obtain ⟨x, -, hx⟩ := List.mem_map.mp hm
      cases hx
    · cases hm
  · rw [hR]
    simp only [planTimes]
    rw [hatt]
    simp

/-- Witness for C2: a 3-frame video whose middle read fails still completes. -/
theorem C2_decode_error_skips_interval_w :
    (run ⟨true, 1, 3, 4, 4,
        fun i => if i = 1 then ReadRes.bad else ReadRes.ok ⟨4, 4⟩,
        fun _ => WriteRes.ok⟩
      ⟨"clip.mp4", "out", 1, 1, none⟩).status = JobStatus.Completed :=
  (C2_decode_error_skips_interval _ _ rfl
    (by intro i m; by_cases h : i = 1 <;> simp [h])
    (by intro n m; simp)).1
